import Mathlib

/-!
Verification of the geometry/measurement engine of the land-area calculator
(`src/client/src/lib/utils/area.ts`).  Points and lines carry real-valued
coordinates and lengths (the TypeScript `number`s), and the functions
`calculateDistance`, `calculatePolygonArea`, `scaleAreaToRealWorld`,
`isClosedPolygon` and `extractVerticesFromLines` are translated statement by
statement from the source.
-/

namespace LandArea

/-- A 2-D point in drawing space (`pointSchema` in `shared/schema.ts`). -/
@[ext]
structure Point where
  x : ℝ
  y : ℝ

instance : Inhabited Point := ⟨⟨0, 0⟩⟩

/-- A drawn segment (`lineSchema` in `shared/schema.ts`): an id, two
endpoints in drawing space and a user-declared real-world length. -/
structure Line where
  id : ℤ
  startPoint : Point
  endPoint : Point
  length : ℝ

instance : Inhabited Line := ⟨⟨0, ⟨0, 0⟩, ⟨0, 0⟩, 0⟩⟩

/-- JavaScript array indexing `vertices[i]` for point arrays (all indices
used by the source are in bounds, so the default value is never read). -/
def getP (vs : List Point) (i : ℕ) : Point := vs.getD i default

/-- JavaScript array indexing `lines[i]` for line arrays. -/
def getL (ls : List Line) (i : ℕ) : Line := ls.getD i default

/-- `calculateDistance` (area.ts, lines 6-10): euclidean distance
`sqrt(dx*dx + dy*dy)`. -/
noncomputable def calculateDistance (point1 point2 : Point) : ℝ :=
  Real.sqrt ((point2.x - point1.x) * (point2.x - point1.x) +
    (point2.y - point1.y) * (point2.y - point1.y))

/-- `calculatePolygonArea` (area.ts, lines 16-30): shoelace formula as the
source's accumulation loop over `i`, with `j = (i+1) % n`, then `|area| / 2`. -/
noncomputable def calculatePolygonArea (vertices : List Point) : ℝ :=
  if vertices.length < 3 then 0
  else
    |(List.range vertices.length).foldl (fun area i =>
        area + (getP vertices i).x * (getP vertices ((i + 1) % vertices.length)).y
             - (getP vertices ((i + 1) % vertices.length)).x * (getP vertices i).y) 0| / 2

/-- `scaleAreaToRealWorld` (area.ts, lines 35-78).  Fewer than 3 lines gives
`0`; exactly 4 lines whose opposite declared lengths agree within `0.1` give
`lengthA * lengthB`; otherwise the pixel area is scaled by the square of the
average declared-length/pixel-length ratio over the lines of positive pixel
length (`0` when no line qualifies).  The `scale` argument is accepted but
unused, as in the source. -/
noncomputable def scaleAreaToRealWorld (pixelArea : ℝ) (lines : List Line)
    (scale : ℝ := 1) : ℝ :=
  if lines.length < 3 then 0
  else if lines.length = 4 ∧
      |(getL lines 0).length - (getL lines 2).length| < 0.1 ∧
      |(getL lines 1).length - (getL lines 3).length| < 0.1 then
    (getL lines 0).length * (getL lines 1).length
  else
    let pixelToMeterRatios : List ℝ :=
      (lines.filter (fun line =>
          decide (0 < calculateDistance line.startPoint line.endPoint))).map
        (fun line => line.length / calculateDistance line.startPoint line.endPoint)
    if pixelToMeterRatios.length = 0 then 0
    else
      let avg := pixelToMeterRatios.sum / pixelToMeterRatios.length
      pixelArea * avg * avg

/-- `isClosedPolygon` (area.ts, lines 83-94): at least 3 points and the
distance from the first to the last point below 5. -/
noncomputable def isClosedPolygon (points : List Point) : Bool :=
  if points.length < 3 then false
  else
    decide (calculateDistance (getP points 0) (getP points (points.length - 1)) < 5)

/-- `extractVerticesFromLines` (area.ts, lines 101-124): start point of the
first line, then each line's end point; when there are at least 3 lines and
the first vertex differs from the last in some coordinate, the first vertex
is appended again to close the polygon. -/
noncomputable def extractVerticesFromLines (lines : List Line) : List Point :=
  if lines.length = 0 then []
  else
    let vertices : List Point := (getL lines 0).startPoint :: lines.map (fun l => l.endPoint)
    if 3 ≤ lines.length then
      let firstPoint := getP vertices 0
      let lastPoint := getP vertices (vertices.length - 1)
      if firstPoint.x ≠ lastPoint.x ∨ firstPoint.y ≠ lastPoint.y then
        vertices ++ [firstPoint]
      else vertices
    else vertices

/-- The vertex list built by `extractVerticesFromLines` before the closure
step: `lines[0].startPoint` followed by every line's `endPoint`. -/
def rawVertices (lines : List Line) : List Point :=
  (getL lines 0).startPoint :: lines.map (fun l => l.endPoint)

end LandArea

namespace LandArea

/-- C7: with fewer than 3 segments the scaler returns 0, whatever the
pixel area, the segments and the scale argument. -/
theorem scaleArea_of_short (pixelArea : ℝ) (lines : List Line) (scale : ℝ)
    (h : lines.length < 3) :
    scaleAreaToRealWorld pixelArea lines scale = 0 := by
  unfold scaleAreaToRealWorld
  rw [if_pos h]

/-- Witness for C7 at the concrete input `pixelArea = 42`, two segments,
`scale = 9`. -/
theorem scaleArea_of_short_witness :
    scaleAreaToRealWorld 42
      [⟨1, ⟨0, 0⟩, ⟨3, 4⟩, 5⟩, ⟨2, ⟨3, 4⟩, ⟨0, 0⟩, 5⟩] 9 = 0 :=
  scaleArea_of_short 42 _ 9 (by simp)

/-- C9: the `scale` argument never influences the result of
`scaleAreaToRealWorld`. -/
theorem scaleArea_scale_independent (pixelArea : ℝ) (lines : List Line)
    (s1 s2 : ℝ) :
    scaleAreaToRealWorld pixelArea lines s1 = scaleAreaToRealWorld pixelArea lines s2 := rfl

/-- C1: with exactly 4 segments whose opposite declared lengths agree within
0.1, the scaler returns `lines[0].length * lines[1].length`, for every pixel
area, every coordinates and every scale. -/
theorem scaleArea_rectangle (pixelArea : ℝ) (lines : List Line) (scale : ℝ)
    (h4 : lines.length = 4)
    (hAC : |(getL lines 0).length - (getL lines 2).length| < 0.1)
    (hBD : |(getL lines 1).length - (getL lines 3).length| < 0.1) :
    scaleAreaToRealWorld pixelArea lines scale =
      (getL lines 0).length * (getL lines 1).length := by
  unfold scaleAreaToRealWorld
  rw [if_neg (by omega), if_pos ⟨h4, hAC, hBD⟩]

/-- Witness for C1: lengths `[10, 5, 10.05, 4.97]` (diffs 0.05 and 0.03) give
`10 * 5 = 50` although the drawn pixel geometry is arbitrary. -/
theorem scaleArea_rectangle_witness :
    scaleAreaToRealWorld 2500
      [⟨1, ⟨0, 0⟩, ⟨7, 1⟩, 10⟩, ⟨2, ⟨7, 1⟩, ⟨6, 9⟩, 5⟩,
       ⟨3, ⟨6, 9⟩, ⟨2, 2⟩, 10.05⟩, ⟨4, ⟨2, 2⟩, ⟨0, 0⟩, 4.97⟩] 3 = 50 := by
  have h := scaleArea_rectangle 2500
    [⟨1, ⟨0, 0⟩, ⟨7, 1⟩, 10⟩, ⟨2, ⟨7, 1⟩, ⟨6, 9⟩, 5⟩,
     ⟨3, ⟨6, 9⟩, ⟨2, 2⟩, 10.05⟩, ⟨4, ⟨2, 2⟩, ⟨0, 0⟩, 4.97⟩] 3
    (by simp)
    (by simp [getL]; norm_num [abs_lt])
    (by simp [getL]; norm_num [abs_lt])
  rw [h]
  simp [getL]
  norm_num

/-- The euclidean distance is a square root, hence nonnegative. -/
lemma calculateDistance_nonneg (p q : Point) : 0 ≤ calculateDistance p q :=
  Real.sqrt_nonneg _

/-- Two points differ exactly when they differ in the x or the y
coordinate (the disequality tested by the source's closure step). -/
lemma Point.ne_iff (p q : Point) : p ≠ q ↔ p.x ≠ q.x ∨ p.y ≠ q.y := by
  rw [Ne, Point.ext_iff]
  tauto

/-- Branch-free description of `extractVerticesFromLines` on non-empty
input, in terms of the pre-closure vertex list `rawVertices`. -/
lemma extractVertices_eq (lines : List Line) (hne : lines.length ≠ 0) :
    extractVerticesFromLines lines =
      if 3 ≤ lines.length ∧
          ((getP (rawVertices lines) 0).x ≠
              (getP (rawVertices lines) ((rawVertices lines).length - 1)).x ∨
            (getP (rawVertices lines) 0).y ≠
              (getP (rawVertices lines) ((rawVertices lines).length - 1)).y) then
        rawVertices lines ++ [getP (rawVertices lines) 0]
      else rawVertices lines := by
  unfold extractVerticesFromLines rawVertices
  rw [if_neg hne]
  by_cases h3 : 3 ≤ lines.length
  · by_cases hxy : (getP (rawVertices lines) 0).x ≠
        (getP (rawVertices lines) ((rawVertices lines).length - 1)).x ∨
        (getP (rawVertices lines) 0).y ≠
          (getP (rawVertices lines) ((rawVertices lines).length - 1)).y
    · rw [if_pos h3, if_pos (by exact hxy), if_pos ⟨h3, hxy⟩]
    · rw [if_pos h3, if_neg (by exact hxy), if_neg (by tauto)]
  · rw [if_neg h3, if_neg (by tauto)]

/-- The pre-closure vertex list has one more entry than the line list. -/
lemma rawVertices_length (lines : List Line) :
    (rawVertices lines).length = lines.length + 1 := by
  simp [rawVertices]

/-- C5: the extractor maps the empty segment list to the empty vertex list,
and on non-empty input its output starts with `lines[0].startPoint` followed
by every line's `endPoint` in order (its first `length + 1` entries are
exactly that list). -/
theorem extractVertices_start (lines : List Line) (hne : lines ≠ []) :
    extractVerticesFromLines [] = [] ∧
    (extractVerticesFromLines lines).take (lines.length + 1) = rawVertices lines := by
  refine ⟨rfl, ?_⟩
  have hlen : lines.length ≠ 0 := by simpa [List.length_eq_zero] using hne
  rw [extractVertices_eq lines hlen]
  by_cases h : 3 ≤ lines.length ∧
      ((getP (rawVertices lines) 0).x ≠
          (getP (rawVertices lines) ((rawVertices lines).length - 1)).x ∨
        (getP (rawVertices lines) 0).y ≠
          (getP (rawVertices lines) ((rawVertices lines).length - 1)).y)
  · rw [if_pos h, List.take_left' (rawVertices_length lines)]
  · rw [if_neg h, ← rawVertices_length lines, List.take_length]

/-- Witness for C5 at one line from `(0,0)` to `(1,0)`. -/
theorem extractVertices_start_witness :
    (extractVerticesFromLines [⟨1, ⟨0, 0⟩, ⟨1, 0⟩, 1⟩]).take 2 =
      [⟨0, 0⟩, ⟨1, 0⟩] := by
  have h := extractVertices_start [⟨1, ⟨0, 0⟩, ⟨1, 0⟩, 1⟩] (by simp)
  simpa [rawVertices, getL] using h.2

/-- C4 counterexample: two connected segments produce the 3 vertices
`[(0,0), (1,0), (1,1)]`, whose first and last entries differ, yet no copy of
the first vertex is appended (the source requires at least 3 *segments*, not
3 vertices, before closing the loop). -/
theorem extractVertices_closure_counterexample :
    extractVerticesFromLines
        [⟨1, ⟨0, 0⟩, ⟨1, 0⟩, 1⟩, ⟨2, ⟨1, 0⟩, ⟨1, 1⟩, 1⟩] =
      [⟨0, 0⟩, ⟨1, 0⟩, ⟨1, 1⟩] ∧
    (⟨0, 0⟩ : Point) ≠ (⟨1, 1⟩ : Point) := by
  constructor
  · unfold extractVerticesFromLines
    norm_num [getL]
  · rw [Point.ne_iff]
    norm_num

/-- C4 amended: for at least 3 *segments* (pre-closure vertex count at least
4), the extractor appends a copy of the first vertex exactly when the first
vertex differs from the last one. -/
theorem extractVertices_closure (lines : List Line) (h3 : 3 ≤ lines.length) :
    (getP (rawVertices lines) 0 ≠
        getP (rawVertices lines) ((rawVertices lines).length - 1) →
      extractVerticesFromLines lines =
        rawVertices lines ++ [getP (rawVertices lines) 0]) ∧
    (getP (rawVertices lines) 0 =
        getP (rawVertices lines) ((rawVertices lines).length - 1) →
      extractVerticesFromLines lines = rawVertices lines) := by
  have hne : lines.length ≠ 0 := by omega
  rw [extractVertices_eq lines hne]
  constructor
  · intro hd
    rw [if_pos ⟨h3, (Point.ne_iff _ _).mp hd⟩]
  · intro hd
    rw [if_neg]
    rintro ⟨-, hxy⟩
    exact (Point.ne_iff _ _).mpr hxy hd

/-- Witness for C4's amended claim: three segments tracing three sides of a
rectangle get closed by a copy of the first vertex. -/
theorem extractVertices_closure_witness :
    extractVerticesFromLines
        [⟨1, ⟨0, 0⟩, ⟨4, 0⟩, 4⟩, ⟨2, ⟨4, 0⟩, ⟨4, 3⟩, 3⟩, ⟨3, ⟨4, 3⟩, ⟨0, 3⟩, 4⟩] =
      [⟨0, 0⟩, ⟨4, 0⟩, ⟨4, 3⟩, ⟨0, 3⟩, ⟨0, 0⟩] := by
  have h := (extractVertices_closure
      [⟨1, ⟨0, 0⟩, ⟨4, 0⟩, 4⟩, ⟨2, ⟨4, 0⟩, ⟨4, 3⟩, 3⟩, ⟨3, ⟨4, 3⟩, ⟨0, 3⟩, 4⟩]
      (by simp)).1
    (by rw [Point.ne_iff]; norm_num [rawVertices, getP, getL])
  simpa [rawVertices, getP, getL] using h

/-- C10: `isClosedPolygon` holds exactly when there are at least 3 points and
the first and last points are closer than 5 drawing-space units; in
particular it is false below 3 points. -/
theorem isClosedPolygon_iff (points : List Point) :
    isClosedPolygon points = true ↔
      3 ≤ points.length ∧
        calculateDistance (getP points 0) (getP points (points.length - 1)) < 5 := by
  unfold isClosedPolygon
  by_cases h : points.length < 3
  · rw [if_pos h]
    simp only [Bool.false_eq_true, false_iff, not_and]
    omega
  · rw [if_neg h]
    simp only [decide_eq_true_iff, iff_and_self]
    intro _
    omega

/-- The euclidean distance vanishes exactly on coinciding points. -/
lemma calculateDistance_eq_zero_iff (p q : Point) :
    calculateDistance p q = 0 ↔ p = q := by
  unfold calculateDistance
  rw [Real.sqrt_eq_zero (add_nonneg (mul_self_nonneg _) (mul_self_nonneg _)),
    add_eq_zero_iff_of_nonneg (mul_self_nonneg _) (mul_self_nonneg _),
    mul_self_eq_zero, mul_self_eq_zero, sub_eq_zero, sub_eq_zero, Point.ext_iff]
  constructor
  · rintro ⟨h1, h2⟩
    exact ⟨h1.symm, h2.symm⟩
  · rintro ⟨h1, h2⟩
    exact ⟨h1.symm, h2.symm⟩

/-- On non-short input that misses the rectangle shortcut,
`scaleAreaToRealWorld` is the squared-average-ratio computation. -/
lemma scaleArea_general_eq (pixelArea : ℝ) (lines : List Line) (s : ℝ)
    (h3 : ¬ lines.length < 3)
    (hrect : ¬ (lines.length = 4 ∧
      |(getL lines 0).length - (getL lines 2).length| < 0.1 ∧
      |(getL lines 1).length - (getL lines 3).length| < 0.1)) :
    scaleAreaToRealWorld pixelArea lines s =
      if ((lines.filter (fun line =>
            decide (0 < calculateDistance line.startPoint line.endPoint))).map
          (fun line => line.length / calculateDistance line.startPoint line.endPoint)).length
          = 0 then 0
      else
        pixelArea *
          (((lines.filter (fun line =>
              decide (0 < calculateDistance line.startPoint line.endPoint))).map
            (fun line => line.length / calculateDistance line.startPoint line.endPoint)).sum /
            ((lines.filter (fun line =>
              decide (0 < calculateDistance line.startPoint line.endPoint))).map
            (fun line => line.length / calculateDistance line.startPoint line.endPoint)).length) *
          (((lines.filter (fun line =>
              decide (0 < calculateDistance line.startPoint line.endPoint))).map
            (fun line => line.length / calculateDistance line.startPoint line.endPoint)).sum /
            ((lines.filter (fun line =>
              decide (0 < calculateDistance line.startPoint line.endPoint))).map
            (fun line => line.length / calculateDistance line.startPoint line.endPoint)).length) := by
  unfold scaleAreaToRealWorld
  rw [if_neg h3, if_neg hrect]

/-- C6: the distance between two points vanishes exactly when they coincide,
and when every segment is degenerate (start equals end, hence pixel distance
0) all segments are excluded from the ratio set and the scaler returns 0 on
the general path, instead of dividing by zero. -/
theorem scaleArea_degenerate :
    (∀ p q : Point, calculateDistance p q = 0 ↔ p = q) ∧
    ∀ (pixelArea : ℝ) (lines : List Line) (s : ℝ),
      3 ≤ lines.length →
      (lines.length ≠ 4 ∨ 0.1 ≤ |(getL lines 0).length - (getL lines 2).length| ∨
        0.1 ≤ |(getL lines 1).length - (getL lines 3).length|) →
      (∀ l ∈ lines, l.startPoint = l.endPoint) →
      scaleAreaToRealWorld pixelArea lines s = 0 := by
  refine ⟨calculateDistance_eq_zero_iff, ?_⟩
  intro pixelArea lines s h3 hshort hdeg
  rw [scaleArea_general_eq pixelArea lines s (by omega)
    (by rintro ⟨h4, hac, hbd⟩
        rcases hshort with h | h | h
        · exact h h4
        · exact absurd hac (not_lt.mpr h)
        · exact absurd hbd (not_lt.mpr h))]
  rw [if_pos]
  rw [List.length_map, List.length_eq_zero, List.filter_eq_nil_iff]
  intro l hl
  have hd : calculateDistance l.startPoint l.endPoint = 0 :=
    (calculateDistance_eq_zero_iff _ _).mpr (hdeg l hl)
  simp [hd]

/-- Witness for C6: three degenerate segments, all ratios excluded,
result 0; and the distance of a point to itself is 0. -/
theorem scaleArea_degenerate_witness :
    (calculateDistance ⟨2, 3⟩ ⟨2, 3⟩ = 0 ↔ (⟨2, 3⟩ : Point) = ⟨2, 3⟩) ∧
    scaleAreaToRealWorld 100
      [⟨1, ⟨5, 5⟩, ⟨5, 5⟩, 2⟩, ⟨2, ⟨6, 1⟩, ⟨6, 1⟩, 3⟩, ⟨3, ⟨0, 2⟩, ⟨0, 2⟩, 4⟩] 1 = 0 := by
  refine ⟨scaleArea_degenerate.1 _ _, ?_⟩
  refine scaleArea_degenerate.2 100 _ 1 (by simp) (Or.inl (by simp)) ?_
  intro l hl
  simp only [List.mem_cons, List.not_mem_nil, or_false] at hl
  rcases hl with h | h | h <;> subst h <;> rfl

/-- C2: on at least 3 segments, when the rectangle shortcut does not apply
(not exactly 4 segments, or some opposite-side difference at least 0.1) and
some segment has nonzero pixel distance, the result is the pixel area times
the square of the mean of `length / distance` over exactly the segments of
nonzero pixel distance. -/
theorem scaleArea_general (pixelArea : ℝ) (lines : List Line) (s : ℝ)
    (h3 : 3 ≤ lines.length)
    (hshort : lines.length ≠ 4 ∨ 0.1 ≤ |(getL lines 0).length - (getL lines 2).length| ∨
      0.1 ≤ |(getL lines 1).length - (getL lines 3).length|)
    (hx : ∃ l ∈ lines, calculateDistance l.startPoint l.endPoint ≠ 0) :
    scaleAreaToRealWorld pixelArea lines s =
      pixelArea *
        (((lines.filter (fun line =>
              decide (calculateDistance line.startPoint line.endPoint ≠ 0))).map
            (fun line => line.length / calculateDistance line.startPoint line.endPoint)).sum /
          ((lines.filter (fun line =>
              decide (calculateDistance line.startPoint line.endPoint ≠ 0))).length : ℝ)) ^ 2 := by
  have hfilter : lines.filter (fun line =>
        decide (0 < calculateDistance line.startPoint line.endPoint)) =
      lines.filter (fun line =>
        decide (calculateDistance line.startPoint line.endPoint ≠ 0)) := by
    apply List.filter_congr
    intro l _
    simp only [decide_eq_decide]
    constructor
    · intro h
      exact ne_of_gt h
    · intro h
      exact lt_of_le_of_ne (calculateDistance_nonneg _ _) (Ne.symm h)
  rw [scaleArea_general_eq pixelArea lines s (by omega)
    (by rintro ⟨h4, hac, hbd⟩
        rcases hshort with h | h | h
        · exact h h4
        · exact absurd hac (not_lt.mpr h)
        · exact absurd hbd (not_lt.mpr h))]
  rw [hfilter]
  obtain ⟨l, hl, hd⟩ := hx
  have hmem : l ∈ lines.filter (fun line =>
      decide (calculateDistance line.startPoint line.endPoint ≠ 0)) :=
    List.mem_filter.mpr ⟨hl, by simpa using hd⟩
  have hne : (lines.filter (fun line =>
      decide (calculateDistance line.startPoint line.endPoint ≠ 0))).length ≠ 0 := by
    intro h0
    rw [List.length_eq_zero] at h0
    rw [h0] at hmem
    exact absurd hmem (List.not_mem_nil l)
  rw [if_neg (by simpa using hne)]
  rw [List.length_map]
  ring

/-- Witness for C2: one segment of declared length 10 drawn over 100 pixels
plus two degenerate segments; pixel area 2500 scales to `2500 * 0.1^2 = 25`. -/
theorem scaleArea_general_witness :
    scaleAreaToRealWorld 2500
      [⟨1, ⟨0, 0⟩, ⟨100, 0⟩, 10⟩, ⟨2, ⟨100, 0⟩, ⟨100, 0⟩, 5⟩,
       ⟨3, ⟨100, 0⟩, ⟨100, 0⟩, 7⟩] 1 = 25 := by
  have hd1 : calculateDistance ⟨0, 0⟩ ⟨100, 0⟩ = 100 := by
    unfold calculateDistance
    rw [show ((100 : ℝ) - 0) * ((100 : ℝ) - 0) + ((0 : ℝ) - 0) * ((0 : ℝ) - 0)
        = 100 ^ 2 by norm_num]
    rw [Real.sqrt_sq (by norm_num)]
  have hd0 : calculateDistance ⟨100, 0⟩ ⟨100, 0⟩ = 0 :=
    (calculateDistance_eq_zero_iff _ _).mpr rfl
  have h := scaleArea_general 2500
    [⟨1, ⟨0, 0⟩, ⟨100, 0⟩, 10⟩, ⟨2, ⟨100, 0⟩, ⟨100, 0⟩, 5⟩,
     ⟨3, ⟨100, 0⟩, ⟨100, 0⟩, 7⟩] 1
    (by simp) (Or.inl (by simp))
    ⟨⟨1, ⟨0, 0⟩, ⟨100, 0⟩, 10⟩, by simp, by rw [hd1]; norm_num⟩
  rw [h]
  rw [show (List.filter (fun line =>
      decide (calculateDistance line.startPoint line.endPoint ≠ 0))
      [⟨1, ⟨0, 0⟩, ⟨100, 0⟩, 10⟩, ⟨2, ⟨100, 0⟩, ⟨100, 0⟩, 5⟩,
       ⟨3, ⟨100, 0⟩, ⟨100, 0⟩, 7⟩] : List Line) = [⟨1, ⟨0, 0⟩, ⟨100, 0⟩, 10⟩] by
    simp only [List.filter, hd1, hd0]
    norm_num]
  simp only [List.map_cons, List.map_nil, List.sum_cons, List.sum_nil, List.length_cons,
    List.length_nil]
  rw [hd1]
  norm_num

/-- `getP` agrees with list indexing inside the bounds. -/
lemma getP_eq_getElem (vs : List Point) (i : ℕ) (h : i < vs.length) :
    getP vs i = vs[i] := by
  rw [getP, List.getD_eq_getElem?_getD, List.getElem?_eq_getElem h, Option.getD_some]

/-- One shoelace summand: the cross product of vertices `i` and
`(i + 1) % n`. -/
noncomputable def crossAt (vs : List Point) (i : ℕ) : ℝ :=
  (getP vs i).x * (getP vs ((i + 1) % vs.length)).y
    - (getP vs ((i + 1) % vs.length)).x * (getP vs i).y

/-- The signed shoelace sum accumulated by the loop of
`calculatePolygonArea`. -/
noncomputable def cyclicSum (vs : List Point) : ℝ :=
  ∑ i ∈ Finset.range vs.length, crossAt vs i

/-- A left fold adding and subtracting one term per index is the start value
plus the sum of the differences. -/
lemma foldl_shoelace (g h : ℕ → ℝ) (l : List ℕ) (c : ℝ) :
    l.foldl (fun acc i => acc + g i - h i) c = c + (l.map (fun i => g i - h i)).sum := by
  induction l generalizing c with
  | nil => simp
  | cons x xs ih =>
    rw [List.foldl_cons, ih, List.map_cons, List.sum_cons]
    ring

/-- Sum of a function over `List.range` as a `Finset.range` sum. -/
lemma sum_map_range (g : ℕ → ℝ) (n : ℕ) :
    ((List.range n).map g).sum = ∑ i ∈ Finset.range n, g i := by
  induction n with
  | zero => simp
  | succ m ih =>
    rw [List.range_succ, List.map_append, List.sum_append, Finset.sum_range_succ, ih]
    simp

/-- On at least 3 vertices, `calculatePolygonArea` is half the absolute
value of the signed shoelace sum. -/
lemma calculatePolygonArea_abs (vs : List Point) (h : ¬ vs.length < 3) :
    calculatePolygonArea vs = |cyclicSum vs| / 2 := by
  unfold calculatePolygonArea
  rw [if_neg h]
  congr 2
  rw [foldl_shoelace (fun i => (getP vs i).x * (getP vs ((i + 1) % vs.length)).y)
    (fun i => (getP vs ((i + 1) % vs.length)).x * (getP vs i).y)
    (List.range vs.length) 0]
  rw [zero_add, sum_map_range]
  rfl

/-- Summing `g ((i + k) % n)` over `range n` is summing `g` over `range n`:
the map `i ↦ (i + k) % n` permutes `range n`. -/
lemma sum_range_mod_shift (g : ℕ → ℝ) (n k : ℕ) :
    ∑ i ∈ Finset.range n, g ((i + k) % n) = ∑ i ∈ Finset.range n, g i := by
  rcases Nat.eq_zero_or_pos n with hn | hn
  · subst hn
    simp
  · refine Finset.sum_nbij' (fun i => (i + k) % n) (fun j => (j + (n - k % n)) % n)
      ?_ ?_ ?_ ?_ ?_
    · intro a ha
      rw [Finset.mem_range] at ha ⊢
      exact Nat.mod_lt _ hn
    · intro b hb
      rw [Finset.mem_range] at hb ⊢
      exact Nat.mod_lt _ hn
    · intro a ha
      rw [Finset.mem_range] at ha
      show ((a + k) % n + (n - k % n)) % n = a
      rw [Nat.mod_add_mod]
      have h1 : k % n < n := Nat.mod_lt _ hn
      have h2 : k % n + n * (k / n) = k := Nat.mod_add_div k n
      have h3 : a + k + (n - k % n) = a + n * (k / n) + n := by omega
      rw [h3, Nat.add_mod_right, Nat.add_mul_mod_self_left, Nat.mod_eq_of_lt ha]
    · intro b hb
      rw [Finset.mem_range] at hb
      show ((b + (n - k % n)) % n + k) % n = b
      rw [Nat.mod_add_mod]
      have h1 : k % n < n := Nat.mod_lt _ hn
      have h2 : k % n + n * (k / n) = k := Nat.mod_add_div k n
      have h3 : b + (n - k % n) + k = b + n * (k / n) + n := by omega
      rw [h3, Nat.add_mod_right, Nat.add_mul_mod_self_left, Nat.mod_eq_of_lt hb]
    · intro a ha
      rfl

/-- `getP` of a rotated list reads the original list at the shifted index. -/
lemma getP_rotate (vs : List Point) (k i : ℕ) (h : i < vs.length) :
    getP (vs.rotate k) i = getP vs ((i + k) % vs.length) := by
  have h1 : i < (vs.rotate k).length := by
    rw [List.length_rotate]
    exact h
  have h2 : (i + k) % vs.length < vs.length := Nat.mod_lt _ (by omega)
  rw [getP_eq_getElem _ _ h1, getP_eq_getElem _ _ h2]
  exact List.getElem_rotate vs k i h1

/-- `getP` of a reversed list reads the original list at the mirrored
index. -/
lemma getP_reverse (vs : List Point) (i : ℕ) (h : i < vs.length) :
    getP vs.reverse i = getP vs (vs.length - 1 - i) := by
  have h1 : i < vs.reverse.length := by
    rw [List.length_reverse]
    exact h
  have h2 : vs.length - 1 - i < vs.length := by omega
  rw [getP_eq_getElem _ _ h1, getP_eq_getElem _ _ h2]
  exact List.getElem_reverse h1

/-- The signed shoelace sum is invariant under rotation. -/
lemma cyclicSum_rotate (vs : List Point) (k : ℕ) :
    cyclicSum (vs.rotate k) = cyclicSum vs := by
  unfold cyclicSum
  rw [List.length_rotate]
  rcases Nat.eq_zero_or_pos vs.length with hn | hn
  · rw [hn]
    simp
  · have step : ∀ i ∈ Finset.range vs.length,
        crossAt (vs.rotate k) i = crossAt vs ((i + k) % vs.length) := by
      intro i hi
      rw [Finset.mem_range] at hi
      unfold crossAt
      rw [List.length_rotate]
      rw [getP_rotate vs k i hi, getP_rotate vs k ((i + 1) % vs.length) (Nat.mod_lt _ hn)]
      rw [Nat.mod_add_mod, Nat.mod_add_mod, Nat.add_right_comm i 1 k]
    rw [Finset.sum_congr rfl step, sum_range_mod_shift (crossAt vs) vs.length k]

/-- The reversed-order shoelace summand: vertex `m` crossed with its cyclic
predecessor. -/
noncomputable def revCrossAt (vs : List Point) (m : ℕ) : ℝ :=
  (getP vs m).x * (getP vs ((m + (vs.length - 1)) % vs.length)).y
    - (getP vs ((m + (vs.length - 1)) % vs.length)).x * (getP vs m).y

/-- The signed shoelace sum changes sign under reversal. -/
lemma cyclicSum_reverse (vs : List Point) :
    cyclicSum vs.reverse = - cyclicSum vs := by
  unfold cyclicSum
  rw [List.length_reverse]
  rcases Nat.eq_zero_or_pos vs.length with hn | hn
  · rw [hn]
    simp
  · have hidx : ∀ i < vs.length,
        ((vs.length - 1 - i) + (vs.length - 1)) % vs.length
          = vs.length - 1 - ((i + 1) % vs.length) := by
      intro i hi
      rcases Nat.lt_or_ge (i + 1) vs.length with hlt | hge
      · rw [Nat.mod_eq_of_lt hlt]
        have h2 : (vs.length - 1 - i) + (vs.length - 1)
            = (vs.length - 2 - i) + vs.length := by omega
        rw [h2, Nat.add_mod_right, Nat.mod_eq_of_lt (by omega)]
        omega
      · have hi1 : i + 1 = vs.length := by omega
        rw [hi1, Nat.mod_self]
        have h2 : vs.length - 1 - i = 0 := by omega
        rw [h2, Nat.zero_add, Nat.mod_eq_of_lt (by omega)]
        omega
    have stepA : ∀ i ∈ Finset.range vs.length,
        crossAt vs.reverse i = revCrossAt vs (vs.length - 1 - i) := by
      intro i hi
      rw [Finset.mem_range] at hi
      unfold crossAt revCrossAt
      rw [List.length_reverse]
      rw [getP_reverse vs i hi, getP_reverse vs ((i + 1) % vs.length) (Nat.mod_lt _ hn)]
      rw [hidx i hi]
    have stepB : ∀ m ∈ Finset.range vs.length,
        revCrossAt vs m = - crossAt vs ((m + (vs.length - 1)) % vs.length) := by
      intro m hm
      rw [Finset.mem_range] at hm
      unfold crossAt revCrossAt
      have hpm : ((m + (vs.length - 1)) % vs.length + 1) % vs.length = m := by
        rw [Nat.mod_add_mod]
        have h2 : m + (vs.length - 1) + 1 = m + vs.length := by omega
        rw [h2, Nat.add_mod_right, Nat.mod_eq_of_lt hm]
      rw [hpm]
      ring
    calc ∑ i ∈ Finset.range vs.length, crossAt vs.reverse i
        = ∑ i ∈ Finset.range vs.length, revCrossAt vs (vs.length - 1 - i) :=
          Finset.sum_congr rfl stepA
      _ = ∑ m ∈ Finset.range vs.length, revCrossAt vs m :=
          Finset.sum_range_reflect (revCrossAt vs) vs.length
      _ = ∑ m ∈ Finset.range vs.length,
            - crossAt vs ((m + (vs.length - 1)) % vs.length) :=
          Finset.sum_congr rfl stepB
      _ = - ∑ m ∈ Finset.range vs.length,
            crossAt vs ((m + (vs.length - 1)) % vs.length) :=
          Finset.sum_neg_distrib
      _ = - ∑ m ∈ Finset.range vs.length, crossAt vs m := by
          rw [sum_range_mod_shift (crossAt vs) vs.length (vs.length - 1)]

/-- The computed polygon area is unchanged by reversing the vertex list. -/
lemma calculatePolygonArea_reverse (vs : List Point) :
    calculatePolygonArea vs.reverse = calculatePolygonArea vs := by
  by_cases h : vs.length < 3
  · unfold calculatePolygonArea
    rw [if_pos (by rw [List.length_reverse]; exact h), if_pos h]
  · rw [calculatePolygonArea_abs _ (by rw [List.length_reverse]; exact h),
      calculatePolygonArea_abs _ h, cyclicSum_reverse, abs_neg]

/-- The computed polygon area is unchanged by rotating the vertex list. -/
lemma calculatePolygonArea_rotate (vs : List Point) (k : ℕ) :
    calculatePolygonArea (vs.rotate k) = calculatePolygonArea vs := by
  by_cases h : vs.length < 3
  · unfold calculatePolygonArea
    rw [if_pos (by rw [List.length_rotate]; exact h), if_pos h]
  · rw [calculatePolygonArea_abs _ (by rw [List.length_rotate]; exact h),
      calculatePolygonArea_abs _ h, cyclicSum_rotate]

/-- C3: `calculatePolygonArea` returns 0 below 3 vertices and otherwise half
the absolute value of the shoelace sum with wraparound indexing; the result
is nonnegative on every input. -/
theorem polygonArea_spec (vs : List Point) :
    calculatePolygonArea vs =
      (if vs.length < 3 then 0
       else |∑ i ∈ Finset.range vs.length,
          ((getP vs i).x * (getP vs ((i + 1) % vs.length)).y
            - (getP vs ((i + 1) % vs.length)).x * (getP vs i).y)| / 2) ∧
    0 ≤ calculatePolygonArea vs := by
  constructor
  · by_cases h : vs.length < 3
    · rw [if_pos h]
      unfold calculatePolygonArea
      rw [if_pos h]
    · rw [if_neg h, calculatePolygonArea_abs vs h]
      rfl
  · by_cases h : vs.length < 3
    · unfold calculatePolygonArea
      rw [if_pos h]
    · rw [calculatePolygonArea_abs vs h]
      positivity

/-- C8: the computed polygon area is invariant under reversing the vertex
list and under every cyclic rotation of it. -/
theorem polygonArea_reverse_rotate_invariant (vs : List Point) (k : ℕ) :
    calculatePolygonArea vs.reverse = calculatePolygonArea vs ∧
    calculatePolygonArea (vs.rotate k) = calculatePolygonArea vs :=
  ⟨calculatePolygonArea_reverse vs, calculatePolygonArea_rotate vs k⟩

end LandArea
